import Mathlib

/-!
Verification development for the coc-smartf jump manager
(`src/manager.ts`).

The source is a single TypeScript class `Manager`.  Its pure core is
embedded below:

* `characters` — the fixed 38-symbol label alphabet (manager.ts 4-7);
* `byteIndex` — character-index to byte-index conversion (manager.ts 169-172);
* `getPositions` — the Position Finder from `./util` (that file is not part
  of the sources at hand, so it is modelled from the specification);
* `subLines`, `scanOffset`, `orderedCandidates`, `absPos`, `assignLabels`,
  `jumpCore`, `applyJump` — the body of `Manager.jump` (manager.ts 47-127)
  split into its sequential stages;
* `ManagerState`, `Action` — the mutable fields of `Manager` and the
  editor commands it issues;
* `cancel` (manager.ts 152-161), `resolveKey` (the key-resolution part of
  `getCharacter`, manager.ts 139-149), and the timeout race of
  `getCharacter` (manager.ts 130-138) as `effectiveTimeout` / `timerFires`
  / `fireTimes` / `timeoutFire`.

Coordinates follow the source: `coc#util#cursor` yields a 0-based
(line, character-column) pair, `line('w0')` a 1-based viewport top line,
and positions sent back to the editor are 1-based with byte columns.
Index arithmetic uses `Nat`; the host guarantees the cursor lies inside
the viewport, so the subtractions below do not underflow in any reachable
input.
-/

namespace Smartf

/-- The fixed 38-symbol label alphabet, in declaration (priority) order
(manager.ts 4-7). -/
def characters : List String :=
  ["a", "b", "c", "d", "e", "f", "g", "h", "i", "j", "k", "l", "m", "n", "o", "p", "q", "r",
   "s", "t", "u", "v", "w", "x", "y", "z", "1", "2", "3", "4", "5", "6", "7", "8", "9", "0",
   ",", "."]

/-- A candidate position produced by the Position Finder: 0-based line
offset within the scanned sub-range and 0-based character offset within
that line. -/
structure Candidate where
  line : Nat
  character : Nat
deriving DecidableEq, Repr

/-- `byteIndex content index` (manager.ts 169-172): the UTF-8 byte length
of the first `index` characters of `content`
(`Buffer.byteLength(content.slice(0, index))`). -/
def byteIndex (content : List Char) (index : Nat) : Nat :=
  ((content.take index).map Char.utf8Size).sum

/-- Occurrence indices of `character` in one line, skipping indices below
`start`, and restricted to word starts when `wordJump` is set (the
word-start rule is a parameter `isWordStart`, since the specification
leaves it to the Position Finder). -/
def linePositions (isWordStart : List Char → Nat → Bool) (character : Char)
    (line : List Char) (wordJump : Bool) (start : Nat) : List Nat :=
  (List.range line.length).filter fun i =>
    line.get? i == some character && decide (start ≤ i) && (!wordJump || isWordStart line i)

/-- Modelled from the spec: the Position Finder `getPositions` of
`./util` is imported by manager.ts but its source file is not among the
sources at hand.  Per the specification (§4.1) it maps (search character,
ordered lines, word-boundary flag, column offset) to the ordered sequence
of candidate positions in appearance order, where the column offset is
applied to the first line only and excludes the character positions
before it (the characters already passed on the cursor's own line);
when the word-boundary flag is set only word-start occurrences are kept,
with the word-start rule left abstract as `isWordStart`. -/
def getPositions (isWordStart : List Char → Nat → Bool) (character : Char)
    (lines : List (List Char)) (wordJump : Bool) (offset : Nat) : List Candidate :=
  (List.range lines.length).flatMap fun li =>
    (linePositions isWordStart character (lines.getD li []) wordJump
        (if li == 0 then offset else 0)).map fun i => ⟨li, i⟩

/-- `ls[ls.length - 1] = x` on a JavaScript array: replace the last
element (a no-op on the empty array, where the assignment targets the
out-of-range index -1). -/
def setLast (ls : List (List Char)) (x : List Char) : List (List Char) :=
  if ls.isEmpty then ls else ls.dropLast ++ [x]

/-- The batched editor reads consumed by `Manager.jump` (manager.ts 61)
together with the two configuration flags it consults. -/
structure JumpInput where
  /-- `cursor[0]`: 0-based cursor line. -/
  cursorLine : Nat
  /-- `cursor[1]`: 0-based cursor character column. -/
  cursorCol : Nat
  /-- `line('w0')`: 1-based first visible line. -/
  startline : Nat
  /-- `getline('.')`: the cursor's line text. -/
  currline : List Char
  /-- `getline(line('w0'), line('w$'))`: the visible lines. -/
  lines : List (List Char)
  wordJump : Bool
  jumpOnTrigger : Bool
deriving DecidableEq, Repr

/-- The directional sub-range (manager.ts 67-76): backward keeps the
viewport lines down to the cursor's line with that line truncated to the
text before the cursor column; forward keeps the cursor's line (scanned
from the column offset) through the end of the viewport. -/
def subLines (inp : JumpInput) (isForward : Bool) : List (List Char) :=
  if isForward then
    inp.lines.drop (inp.cursorLine - (inp.startline - 1))
  else
    setLast (inp.lines.take (inp.cursorLine - (inp.startline - 1) + 1))
      (inp.currline.take inp.cursorCol)

/-- The first-line column offset passed to the Position Finder
(manager.ts 67, 74): `cursor[1] + 1` for a forward jump, `0` backward. -/
def scanOffset (inp : JumpInput) (isForward : Bool) : Nat :=
  if isForward then inp.cursorCol + 1 else 0

/-- The ordered candidate sequence of a jump (manager.ts 77-79): the
Position Finder's output on the directional sub-range, reversed for a
backward jump so that label priority runs from the cursor outward. -/
def orderedCandidates (isWordStart : List Char → Nat → Bool) (inp : JumpInput)
    (isForward : Bool) (character : Char) : List Candidate :=
  let ps := getPositions isWordStart character (subLines inp isForward)
    inp.wordJump (scanOffset inp isForward)
  if isForward then ps else ps.reverse

/-- Conversion of a sub-range candidate to the absolute 1-based
(line, byte-column) pair sent to the editor (manager.ts 84-85, 98-99). -/
def absPos (inp : JumpInput) (isForward : Bool) (p : Candidate) : Nat × Nat :=
  (inp.startline + p.line + (if isForward then inp.cursorLine + 1 - inp.startline else 0),
   byteIndex ((subLines inp isForward).getD p.line []) p.character + 1)

/-- The label-assignment loop of manager.ts 95-105, at loop counter `i`:
position `i` receives `characters[i]` when that is defined
(`if (ch)` — every alphabet entry is a non-empty string, so truthy), and
joins the remainder list otherwise. -/
def assignLabelsAux (i : Nat) : List (Nat × Nat) → List (String × (Nat × Nat)) × List (Nat × Nat)
  | [] => ([], [])
  | p :: ps =>
    let rest := assignLabelsAux (i + 1) ps
    match characters.get? i with
    | some ch => ((ch, p) :: rest.1, rest.2)
    | none => (rest.1, p :: rest.2)

/-- The Label Assigner (manager.ts 94-105): the `i`-th position is keyed
by the `i`-th alphabet symbol while the alphabet lasts; the overflow
positions form the remainder list, in order. -/
def assignLabels (ps : List (Nat × Nat)) : List (String × (Nat × Nat)) × List (Nat × Nat) :=
  assignLabelsAux 0 ps

/-- Outcome of one run of `Manager.jump`. -/
inductive JumpResult where
  /-- No candidate: the early return of manager.ts 78. -/
  | noMatch : JumpResult
  /-- `jumpOnTrigger` consumed the only candidate: the cursor moves to
  `target` and the early return of manager.ts 92 fires, no markers. -/
  | jumpedOnly (target : Nat × Nat) : JumpResult
  /-- Markers are rendered: `firstJump` is the `jumpOnTrigger` cursor
  move (if any), `labels` the Label Table entries, `remains` the
  Remainder List (manager.ts 81-119). -/
  | rendered (firstJump : Option (Nat × Nat)) (labels : List (String × (Nat × Nat)))
      (remains : List (Nat × Nat)) : JumpResult
deriving DecidableEq, Repr

/-- The pure core of `Manager.jump` (manager.ts 67-119): scan, optionally
consume the first candidate for the trigger jump, then assign labels to
the (remaining) candidates converted to absolute positions. -/
def jumpCore (isWordStart : List Char → Nat → Bool) (inp : JumpInput)
    (isForward : Bool) (character : Char) : JumpResult :=
  match orderedCandidates isWordStart inp isForward character with
  | [] => .noMatch
  | first :: rest =>
    if inp.jumpOnTrigger then
      if rest.isEmpty then
        .jumpedOnly (absPos inp isForward first)
      else
        let r := assignLabels (rest.map (absPos inp isForward))
        .rendered (some (absPos inp isForward first)) r.1 r.2
    else
      let r := assignLabels ((first :: rest).map (absPos inp isForward))
      .rendered none r.1 r.2

/-- The mutable fields of `Manager` that the session protocol reads and
writes (manager.ts 15-23): the marker handles, the Label Table, the
stored direction and search character, and the stored repeat position. -/
structure ManagerState where
  matchIds : List Nat
  positionMap : List (String × (Nat × Nat))
  isForward : Bool
  character : Char
  repeatPosition : Option (Nat × Nat)
deriving DecidableEq, Repr

/-- Editor commands issued by the session protocol. -/
inductive Action where
  /-- `nvim.setVar('coc_smartf_activated', v)`. -/
  | setActivated (v : Nat) : Action
  /-- `silent doautocmd User <name>`. -/
  | autocmd (name : String) : Action
  /-- `coc#util#clearmatches([ids])`. -/
  | clearMatches (ids : List Nat) : Action
  /-- `nvim.call('cursor', pos)`. -/
  | cursorMove (pos : Nat × Nat) : Action
  /-- `feedkeys("\<esc>", 'in')` from the timeout callback. -/
  | feedEsc : Action
  /-- The recursive `this.jump(isForward, character)` of manager.ts 142. -/
  | reenterJump (isForward : Bool) (character : Char) : Action
deriving DecidableEq, Repr

/-- `Manager.cancel` (manager.ts 152-161): a no-op when no marker
handles are stored, otherwise it resets the session flag, fires the
leave autocmd, clears exactly the stored handles and empties the
handle list. -/
def cancel (s : ManagerState) : ManagerState × List Action :=
  if s.matchIds.isEmpty then (s, [])
  else
    ({ s with matchIds := [] },
     [.setActivated 0, .autocmd "SmartfLeave", .clearMatches s.matchIds])

/-- The state update performed by one run of `Manager.jump` on the
`Manager` fields, with `character` already known (the repeat paths; a
fresh read additionally stores the direction and character, manager.ts
62-66).  Line 49 clears the Label Table unconditionally; a rendering run
rebuilds it, stores the editor's marker `handles` (manager.ts 122) and
stores the first remainder position as the repeat position
(manager.ts 106). -/
def applyJump (s : ManagerState) (isWordStart : List Char → Nat → Bool) (inp : JumpInput)
    (isForward : Bool) (character : Char) (handles : List Nat) : ManagerState :=
  let s0 := { s with positionMap := [] }
  match jumpCore isWordStart inp isForward character with
  | .noMatch => s0
  | .jumpedOnly _ => s0
  | .rendered _ labels remains =>
    { s0 with
      positionMap := labels
      matchIds := handles
      repeatPosition := remains.head? }

/-- The else-branch of the key resolution (manager.ts 145-149): look the
key up in the Label Table, cancel the markers, and move the cursor on a
hit. -/
def resolveOther (s : ManagerState) (ch : String) : ManagerState × List Action :=
  let val := s.positionMap.lookup ch
  let c := cancel s
  match val with
  | some p => (c.1, c.2 ++ [.cursorMove p])
  | none => (c.1, c.2)

/-- The key resolution of `Manager.getCharacter` (manager.ts 139-149):
when the captured key is `';'` and a repeat position is stored (a
JavaScript array is always truthy, so the test is definedness), cancel
the markers, move the cursor to the repeat position and re-enter the
jump with the stored direction and search character; otherwise resolve
through the Label Table. -/
def resolveKey (s : ManagerState) (ch : String) : ManagerState × List Action :=
  match s.repeatPosition with
  | some rp =>
    if ch == ";" then
      let c := cancel s
      (c.1, c.2 ++ [.cursorMove rp, .reenterJump s.isForward s.character])
    else resolveOther s ch
  | none => resolveOther s ch

/-- The timer duration of manager.ts 136: `this.timeout || 1000` — the
configured value when non-zero (the only falsy `Nat`), else 1000. -/
def effectiveTimeout (timeout : Nat) : Nat :=
  if timeout == 0 then 1000 else timeout

/-- Whether the timeout callback body runs (manager.ts 132-136): the key
promise resolving first sets `finished`, making the callback a no-op; the
callback runs its body exactly when no key has arrived strictly before
the effective duration. -/
def timerFires (keyArrival : Option Nat) (timeout : Nat) : Bool :=
  match keyArrival with
  | none => true
  | some a => decide (effectiveTimeout timeout ≤ a)

/-- The firing times of the single-shot timer: one shot at the effective
duration when it fires, none when it is defused. -/
def fireTimes (keyArrival : Option Nat) (timeout : Nat) : List Nat :=
  if timerFires keyArrival timeout then [effectiveTimeout timeout] else []

/-- What the timeout callback body does (manager.ts 134-135): feed a
synthetic escape to unblock the pending key read, then cancel the
markers.  No cursor movement is issued. -/
def timeoutFire (s : ManagerState) : ManagerState × List Action :=
  let c := cancel s
  (c.1, .feedEsc :: c.2)

/-! ### Helper lemmas -/

theorem characters_length : characters.length = 38 := rfl

/-- Labelled part of the assignment loop started at counter `i`: the
positions are zipped with the alphabet symbols from index `i` on. -/
theorem assignLabelsAux_fst (ps : List (Nat × Nat)) :
    ∀ i, (assignLabelsAux i ps).1 = (characters.drop i).zip ps := by
  induction ps with
  | nil => intro i; simp [assignLabelsAux]
  | cons p ps ih =>
    intro i
    simp only [assignLabelsAux]
    cases h : characters.get? i with
    | some ch =>
      obtain ⟨hi, hch⟩ := List.get?_eq_some.mp h
      have hch2 : characters[i] = ch := by simpa using hch
      rw [ih (i + 1), List.drop_eq_getElem_cons hi, List.zip_cons_cons, hch2]
    | none =>
      have hl : characters.length ≤ i := List.get?_eq_none.mp h
      rw [ih (i + 1)]
      rw [List.drop_eq_nil_of_le hl, List.drop_eq_nil_of_le (Nat.le_succ_of_le hl)]
      simp

/-- Remainder part of the assignment loop started at counter `i`: the
positions beyond the remaining alphabet are kept, in order. -/
theorem assignLabelsAux_snd (ps : List (Nat × Nat)) :
    ∀ i, (assignLabelsAux i ps).2 = ps.drop (characters.length - i) := by
  induction ps with
  | nil => intro i; simp [assignLabelsAux]
  | cons p ps ih =>
    intro i
    simp only [assignLabelsAux]
    cases h : characters.get? i with
    | some ch =>
      obtain ⟨hi, _⟩ := List.get?_eq_some.mp h
      rw [ih (i + 1)]
      have h1 : characters.length - i = (characters.length - (i + 1)) + 1 := by omega
      rw [h1, List.drop_succ_cons]
    | none =>
      have hl : characters.length ≤ i := List.get?_eq_none.mp h
      rw [ih (i + 1)]
      have h1 : characters.length - i = 0 := by omega
      have h2 : characters.length - (i + 1) = 0 := by omega
      rw [h1, h2]
      simp

theorem assignLabels_fst (ps : List (Nat × Nat)) :
    (assignLabels ps).1 = characters.zip ps := by
  simpa using assignLabelsAux_fst ps 0

theorem assignLabels_snd (ps : List (Nat × Nat)) :
    (assignLabels ps).2 = ps.drop 38 := by
  simpa using assignLabelsAux_snd ps 0

/-- A key that is not an alphabet symbol is never found in the assigned
label table. -/
theorem lookup_zip_eq_none {k : String} (l : List String) (ps : List (Nat × Nat))
    (hk : k ∉ l) : (l.zip ps).lookup k = none := by
  induction l generalizing ps with
  | nil => simp
  | cons c l ih =>
    cases ps with
    | nil => simp
    | cons p ps =>
      have hne : (k == c) = false := by
        simp only [beq_eq_false_iff_ne, ne_eq]
        intro heq; exact hk (heq ▸ List.mem_cons_self c l)
      simp only [List.zip_cons_cons, List.lookup, hne]
      exact ih ps fun hm => hk (List.mem_cons_of_mem c hm)

/-- Membership characterisation of the Position Finder's output: a
candidate is an in-range occurrence of the search character that clears
the first-line offset and, in word mode, the word-start rule. -/
theorem mem_getPositions {iws : List Char → Nat → Bool} {c : Char}
    {lines : List (List Char)} {w : Bool} {off : Nat} {p : Candidate} :
    p ∈ getPositions iws c lines w off ↔
      p.line < lines.length ∧
      (lines.getD p.line []).get? p.character = some c ∧
      (if p.line = 0 then off else 0) ≤ p.character ∧
      (w = false ∨ iws (lines.getD p.line []) p.character = true) := by
  obtain ⟨pl, pc⟩ := p
  simp only [getPositions, linePositions, List.mem_flatMap, List.mem_map, List.mem_filter,
    List.mem_range, Bool.and_eq_true, beq_iff_eq, decide_eq_true_eq, Bool.or_eq_true,
    Bool.not_eq_true']
  constructor
  · rintro ⟨li, hli, i, ⟨hi, ⟨hg, hs⟩, hw⟩, heq⟩
    cases heq
    exact ⟨hli, hg, hs, hw⟩
  · rintro ⟨hli, hg, hs, hw⟩
    refine ⟨pl, hli, pc, ⟨?_, ⟨hg, hs⟩, hw⟩, rfl⟩
    have := List.get?_eq_some.mp hg
    exact this.1

/-- `setLast` keeps the number of lines. -/
theorem setLast_length (ls : List (List Char)) (x : List Char) :
    (setLast ls x).length = ls.length := by
  by_cases h : ls.isEmpty
  · simp [setLast, h]
  · have hne : ls ≠ [] := by simpa [List.isEmpty_iff] using h
    have hie : ls.isEmpty = false := by simpa [List.isEmpty_iff] using hne
    have h1 : 1 ≤ ls.length := List.length_pos.mpr hne
    simp only [setLast, hie, Bool.false_eq_true, if_false, List.length_append,
      List.length_dropLast, List.length_cons, List.length_nil]
    omega

/-- `setLast` puts `x` at the final index. -/
theorem setLast_getD_last (ls : List (List Char)) (x : List Char) (h : ls ≠ []) :
    (setLast ls x).getD (ls.length - 1) [] = x := by
  have hie : ls.isEmpty = false := by simpa [List.isEmpty_iff] using h
  have hlen : ls.dropLast.length = ls.length - 1 := List.length_dropLast ls
  simp only [setLast, hie, Bool.false_eq_true, if_false]
  rw [List.getD_append_right ls.dropLast [x] [] (ls.length - 1) (le_of_eq hlen), hlen]
  simp

/-- `setLast` leaves every index before the final one unchanged. -/
theorem setLast_getD_of_lt (ls : List (List Char)) (x : List Char) (i : Nat)
    (h : i + 1 < ls.length) :
    (setLast ls x).getD i [] = ls.getD i [] := by
  have hne : ls ≠ [] := by intro he; rw [he] at h; simp at h
  have hie : ls.isEmpty = false := by simpa [List.isEmpty_iff] using hne
  have hlen : ls.dropLast.length = ls.length - 1 := List.length_dropLast ls
  have hi : i < ls.dropLast.length := by omega
  simp only [setLast, hie, Bool.false_eq_true, if_false]
  rw [List.getD_append ls.dropLast [x] [] i hi, List.getD_eq_getElem?_getD,
    List.getD_eq_getElem?_getD, List.getElem?_dropLast]
  have : i < ls.length - 1 := by omega
  simp [this]

/-- Every rendered outcome of `jumpCore` carries a label table and a
remainder list produced by the Label Assigner on one position list. -/
theorem jumpCore_rendered_assign {iws : List Char → Nat → Bool} {inp : JumpInput}
    {isF : Bool} {c : Char} {f : Option (Nat × Nat)} {ls : List (String × (Nat × Nat))}
    {rs : List (Nat × Nat)}
    (h : jumpCore iws inp isF c = .rendered f ls rs) :
    ∃ ps : List (Nat × Nat), ls = (assignLabels ps).1 ∧ rs = (assignLabels ps).2 := by
  cases hc : orderedCandidates iws inp isF c with
  | nil =>
    simp only [jumpCore.eq_def, hc] at h
    cases h
  | cons first rest =>
    simp only [jumpCore.eq_def, hc] at h
    by_cases hj : inp.jumpOnTrigger
    · simp only [hj, if_true] at h
      by_cases hr : rest.isEmpty
      · simp only [hr, if_true] at h
        cases h
      · simp only [hr, Bool.false_eq_true, if_false] at h
        cases h
        exact ⟨rest.map (absPos inp isF), rfl, rfl⟩
    · have hj2 : inp.jumpOnTrigger = false := by simpa using hj
      simp only [hj2, Bool.false_eq_true, if_false] at h
      cases h
      exact ⟨(first :: rest).map (absPos inp isF), rfl, rfl⟩

/-! ### Concrete evaluation inputs -/

/-- A word-start rule that accepts nothing; the concrete runs below all
use `wordJump = false`, so it is never consulted. -/
def iwsNone : List Char → Nat → Bool := fun _ _ => false

/-- A session state as left by a plain forward jump: direction and
search character stored, nothing rendered yet. -/
def stateFwdX : ManagerState :=
  { matchIds := [], positionMap := [], isForward := true, character := 'x',
    repeatPosition := none }

/-- A 40-character line of `x`: a backward scan over it overflows the
38-symbol alphabet by two. -/
def lineX40 : List Char := List.replicate 40 'x'

/-- Viewport for a backward jump from the end of `lineX40`. -/
def inpBack40 : JumpInput :=
  { cursorLine := 0, cursorCol := 40, startline := 1, currline := lineX40,
    lines := [lineX40], wordJump := false, jumpOnTrigger := false }

/-- Viewport `["fox", "box"]` with the cursor at the start: the spec's
own forward `jumpOnTrigger` scenario. -/
def inpFox : JumpInput :=
  { cursorLine := 0, cursorCol := 0, startline := 1, currline := ['f', 'o', 'x'],
    lines := [['f', 'o', 'x'], ['b', 'o', 'x']], wordJump := false, jumpOnTrigger := true }

/-- Viewport `["xy"]` with the cursor on the `x`: the search character
sits exactly at the cursor column. -/
def inpXY : JumpInput :=
  { cursorLine := 0, cursorCol := 0, startline := 1, currline := ['x', 'y'],
    lines := [['x', 'y']], wordJump := false, jumpOnTrigger := false }

/-- Viewport `["xx"]` with the cursor on the first `x`. -/
def inpXX : JumpInput :=
  { cursorLine := 0, cursorCol := 0, startline := 1, currline := ['x', 'x'],
    lines := [['x', 'x']], wordJump := false, jumpOnTrigger := false }

/-- A five-line viewport, cursor at line offset 4, column 10, with `x`
at (1,1) and (4,3): the spec's backward scenario. -/
def inpBackScenario : JumpInput :=
  { cursorLine := 4, cursorCol := 10, startline := 1,
    currline := ['a', 'a', 'a', 'x', 'a', 'a', 'a', 'a', 'a', 'a', 'a', 'a'],
    lines := [['a', 'a', 'a', 'a'], ['a', 'x', 'a', 'a'], ['a', 'a', 'a', 'a'],
              ['a', 'a', 'a', 'a'], ['a', 'a', 'a', 'x', 'a', 'a', 'a', 'a', 'a', 'a', 'a', 'a']],
    wordJump := false, jumpOnTrigger := false }

/-- A rendered session state holding one marker handle and one label. -/
def stateActive : ManagerState :=
  { matchIds := [1], positionMap := [("a", (1, 1))], isForward := true, character := 'x',
    repeatPosition := none }

/-! ### The claims -/

/-- C1: for every ordered candidate sequence, label assignment keys the
i-th candidate with the i-th symbol of the 38-symbol alphabet for
`i < 38` (the labelled part is exactly `characters.zip`), every candidate
with `i ≥ 38` goes, in original order, into the Remainder List
(`drop 38`), and for more than 38 candidates exactly 38 labels are
assigned while the Remainder List has length total − 38. -/
theorem labelAssignment_spec (ps : List (Nat × Nat)) :
    (assignLabels ps).1 = characters.zip ps ∧
    (assignLabels ps).2 = ps.drop 38 ∧
    characters.length = 38 ∧
    (38 < ps.length →
      (assignLabels ps).1.length = 38 ∧ (assignLabels ps).2.length = ps.length - 38) := by
  refine ⟨assignLabels_fst ps, assignLabels_snd ps, rfl, fun h => ⟨?_, ?_⟩⟩
  · rw [assignLabels_fst, List.length_zip, characters_length]
    omega
  · rw [assignLabels_snd, List.length_drop]

/-- C1 witness: a 39-candidate sequence yields exactly 38 labels and one
remainder entry. -/
theorem labelAssignment_spec_witness :
    38 < (List.replicate 39 ((1 : Nat), (1 : Nat))).length ∧
    (assignLabels (List.replicate 39 ((1 : Nat), (1 : Nat)))).1.length = 38 ∧
    (assignLabels (List.replicate 39 ((1 : Nat), (1 : Nat)))).2.length =
      (List.replicate 39 ((1 : Nat), (1 : Nat))).length - 38 :=
  ⟨by decide,
   ((labelAssignment_spec (List.replicate 39 ((1 : Nat), (1 : Nat)))).2.2.2 (by decide)).1,
   ((labelAssignment_spec (List.replicate 39 ((1 : Nat), (1 : Nat)))).2.2.2 (by decide)).2⟩

/-- C9: cancellation is idempotent — after one invocation the marker
handle list is empty, so a second invocation returns the same state and
issues no editor calls at all. -/
theorem cancel_idempotent (s : ManagerState) :
    cancel ((cancel s).1) = ((cancel s).1, ([] : List Action)) ∧
    (cancel ((cancel s).1)).1 = (cancel s).1 ∧
    (cancel ((cancel s).1)).2 = ([] : List Action) := by
  have h1 : ((cancel s).1).matchIds = [] := by
    unfold cancel
    by_cases h : s.matchIds.isEmpty
    · simp only [h, if_true]
      exact List.isEmpty_iff.mp h
    · have hie : s.matchIds.isEmpty = false := by simpa using h
      simp [hie]
  have hempty : ∀ t : ManagerState, t.matchIds = [] → cancel t = (t, ([] : List Action)) := by
    intro t ht
    unfold cancel
    simp [ht]
  have h2 := hempty _ h1
  exact ⟨h2, by rw [h2], by rw [h2]⟩

/-- C10: the reserved repeat glyph `';'` is not one of the 38 label
symbols, so no pressed key can be both the repeat glyph and a Label
Table key: a table built by label assignment never contains `';'` as a
key, and neither does the Label Table field left by any jump. -/
theorem repeatGlyph_not_label :
    ";" ∉ characters ∧
    (∀ ps : List (Nat × Nat),
      (assignLabels ps).1.lookup ";" = none ∧
      ∀ p : Nat × Nat, (";", p) ∉ (assignLabels ps).1) ∧
    (∀ (s : ManagerState) (iws : List Char → Nat → Bool) (inp : JumpInput)
        (isF : Bool) (c : Char) (handles : List Nat),
      (applyJump s iws inp isF c handles).positionMap.lookup ";" = none) := by
  have hnot : ";" ∉ characters := by decide
  refine ⟨hnot, fun ps => ⟨?_, ?_⟩, ?_⟩
  · rw [assignLabels_fst]
    exact lookup_zip_eq_none characters ps hnot
  · intro p hp
    rw [assignLabels_fst] at hp
    exact absurd (List.of_mem_zip hp).1 hnot
  · intro s iws inp isF c handles
    unfold applyJump
    cases hj : jumpCore iws inp isF c with
    | noMatch => rfl
    | jumpedOnly t => rfl
    | rendered f ls rs =>
      obtain ⟨ps, hls, _⟩ := jumpCore_rendered_assign hj
      simp only []
      rw [hls, assignLabels_fst]
      exact lookup_zip_eq_none characters ps hnot

/-- C10 witness: the overflow jump over forty `x` characters leaves a
Label Table in which the repeat glyph resolves to nothing. -/
theorem repeatGlyph_not_label_witness :
    (applyJump stateFwdX iwsNone inpBack40 false 'x' [7]).positionMap.lookup ";" = none :=
  repeatGlyph_not_label.2.2 stateFwdX iwsNone inpBack40 false 'x' [7]

/-- C2 counterexample: a session scanned backward (direction `false`,
the `repeatOpposite` entry of a manager whose stored direction is
`true`) overflows the alphabet, so its Remainder List is non-empty and
the repeat position is stored; yet pressing `';'` re-enters the jump
with direction `true` — the stored field, not the session's direction
`false`. -/
theorem repeatGlyph_direction_counterexample :
    (applyJump stateFwdX iwsNone inpBack40 false 'x' [7]).repeatPosition = some (1, 2) ∧
    Action.reenterJump true 'x' ∈
      (resolveKey (applyJump stateFwdX iwsNone inpBack40 false 'x' [7]) ";").2 ∧
    Action.reenterJump false 'x' ∉
      (resolveKey (applyJump stateFwdX iwsNone inpBack40 false 'x' [7]) ";").2 := by
  decide

/-- C2 (amended): when the stored repeat position is defined (exactly
the sessions with a non-empty Remainder List: a rendered jump stores its
first remainder position), pressing `';'` cancels the markers, moves the
cursor to the stored repeat position, and re-enters the jump with the
stored search character and the stored direction field.  The stored
direction equals the session's scan direction for sessions begun by
`forward`, `backward` or `repeat`, but a session begun by
`repeatOpposite` scans against the stored direction, and the re-entry
then uses the stored one. -/
theorem repeatGlyph_amended :
    (∀ (s : ManagerState) (rp : Nat × Nat), s.repeatPosition = some rp →
      resolveKey s ";" =
        ((cancel s).1,
         (cancel s).2 ++ [Action.cursorMove rp,
           Action.reenterJump s.isForward s.character])) ∧
    (∀ (s : ManagerState) (iws : List Char → Nat → Bool) (inp : JumpInput) (isF : Bool)
        (c : Char) (handles : List Nat) (f : Option (Nat × Nat))
        (ls : List (String × (Nat × Nat))) (r : Nat × Nat) (rs : List (Nat × Nat)),
      jumpCore iws inp isF c = .rendered f ls (r :: rs) →
      (applyJump s iws inp isF c handles).repeatPosition = some r ∧
      (applyJump s iws inp isF c handles).isForward = s.isForward ∧
      (applyJump s iws inp isF c handles).character = s.character) := by
  constructor
  · intro s rp h
    unfold resolveKey
    rw [h]
    rfl
  · intro s iws inp isF c handles f ls r rs h
    unfold applyJump
    rw [h]
    exact ⟨rfl, rfl, rfl⟩

/-- C2 witness: the overflow session of `inpBack40` stores repeat
position (1,2); `';'` cancels, moves there and re-enters with the stored
direction and character. -/
theorem repeatGlyph_amended_witness :
    resolveKey (applyJump stateFwdX iwsNone inpBack40 false 'x' [7]) ";" =
      ((cancel (applyJump stateFwdX iwsNone inpBack40 false 'x' [7])).1,
       (cancel (applyJump stateFwdX iwsNone inpBack40 false 'x' [7])).2 ++
         [Action.cursorMove (1, 2),
          Action.reenterJump
            (applyJump stateFwdX iwsNone inpBack40 false 'x' [7]).isForward
            (applyJump stateFwdX iwsNone inpBack40 false 'x' [7]).character]) :=
  repeatGlyph_amended.1 (applyJump stateFwdX iwsNone inpBack40 false 'x' [7]) (1, 2)
    (by decide)

/-- C3 counterexample: with configured timeout `0` the single-shot timer
is armed with `0 || 1000 = 1000`, so when no key arrives it fires at
1000 time units, not at the configured duration `0`. -/
theorem timeout_duration_counterexample :
    effectiveTimeout 0 = 1000 ∧
    fireTimes none 0 = [1000] ∧
    fireTimes none 0 ≠ [0] := by
  decide

/-- C3 (amended): for every configured timeout, if no key arrives before
the armed duration — the configured value when it is non-zero, the
default 1000 when it is zero — the single-shot timer fires exactly once,
at that armed duration; its callback feeds a synthetic escape, clears
the markers (passing the stored handles) and issues no cursor movement. -/
theorem timeout_amended (t : Nat) (keyArrival : Option Nat) (s : ManagerState)
    (h : ∀ a, keyArrival = some a → effectiveTimeout t ≤ a) :
    fireTimes keyArrival t = [effectiveTimeout t] ∧
    (0 < t → effectiveTimeout t = t) ∧
    (timeoutFire s).1.matchIds = [] ∧
    (∀ p : Nat × Nat, Action.cursorMove p ∉ (timeoutFire s).2) ∧
    (s.matchIds ≠ [] → Action.clearMatches s.matchIds ∈ (timeoutFire s).2) := by
  refine ⟨?_, ?_, ?_, ?_, ?_⟩
  · unfold fireTimes timerFires
    cases keyArrival with
    | none => rfl
    | some a => simp [h a rfl]
  · intro ht
    unfold effectiveTimeout
    simp [Nat.pos_iff_ne_zero.mp ht]
  · unfold timeoutFire cancel
    by_cases hm : s.matchIds.isEmpty
    · simp only [hm, if_true]
      exact List.isEmpty_iff.mp hm
    · have hie : s.matchIds.isEmpty = false := by simpa using hm
      simp [hie]
  · intro p
    unfold timeoutFire cancel
    by_cases hm : s.matchIds.isEmpty
    · simp [hm]
    · have hie : s.matchIds.isEmpty = false := by simpa using hm
      simp [hie]
  · intro hne
    have hie : s.matchIds.isEmpty = false := by simpa using hne
    unfold timeoutFire cancel
    simp [hie]

/-- C3 witness: configured timeout 250, no key: the timer fires once at
250, the active markers are cleared and the cursor is untouched. -/
theorem timeout_amended_witness :
    fireTimes none 250 = [effectiveTimeout 250] ∧
    (0 < 250 → effectiveTimeout 250 = 250) ∧
    (timeoutFire stateActive).1.matchIds = [] ∧
    (∀ p : Nat × Nat, Action.cursorMove p ∉ (timeoutFire stateActive).2) ∧
    (stateActive.matchIds ≠ [] →
      Action.clearMatches stateActive.matchIds ∈ (timeoutFire stateActive).2) :=
  timeout_amended 250 none stateActive (fun _ ha => nomatch ha)

/-- C4 counterexample: cancelling an active session (one marker handle,
one Label Table entry) empties the handle list but leaves the Label
Table exactly as it was — non-empty, contradicting the claimed
post-state. -/
theorem cancel_labelTable_counterexample :
    (cancel stateActive).1.matchIds = [] ∧
    (cancel stateActive).1.positionMap = [("a", (1, 1))] ∧
    (cancel stateActive).1.positionMap ≠ [] := by
  decide

/-- C4 (amended): cancellation on an active session clears the rendered
markers passing exactly the handles stored at creation and empties the
marker-handle set, but it does not touch the Label Table — the table is
left unchanged (it is instead discarded at the start of the next jump).
A rendering jump stores precisely the creation handles, so the clear
call names them exactly. -/
theorem cancel_amended :
    (∀ s : ManagerState, s.matchIds ≠ [] →
      cancel s = ({ s with matchIds := [] },
        [Action.setActivated 0, Action.autocmd "SmartfLeave",
         Action.clearMatches s.matchIds]) ∧
      (cancel s).1.positionMap = s.positionMap ∧
      (cancel s).1.matchIds = []) ∧
    (∀ (s : ManagerState) (iws : List Char → Nat → Bool) (inp : JumpInput) (isF : Bool)
        (c : Char) (handles : List Nat) (f : Option (Nat × Nat))
        (ls : List (String × (Nat × Nat))) (rs : List (Nat × Nat)),
      jumpCore iws inp isF c = .rendered f ls rs →
      (applyJump s iws inp isF c handles).matchIds = handles) := by
  constructor
  · intro s hne
    have hie : s.matchIds.isEmpty = false := by simpa using hne
    have hc : cancel s = ({ s with matchIds := [] },
        [Action.setActivated 0, Action.autocmd "SmartfLeave",
         Action.clearMatches s.matchIds]) := by
      unfold cancel
      simp [hie]
    exact ⟨hc, by rw [hc], by rw [hc]⟩
  · intro s iws inp isF c handles f ls rs h
    unfold applyJump
    rw [h]

/-- C4 witness: cancelling the active one-marker session clears handle 1
and keeps its single label entry. -/
theorem cancel_amended_witness :
    cancel stateActive = ({ stateActive with matchIds := [] },
      [Action.setActivated 0, Action.autocmd "SmartfLeave",
       Action.clearMatches stateActive.matchIds]) ∧
    (cancel stateActive).1.positionMap = stateActive.positionMap ∧
    (cancel stateActive).1.matchIds = [] :=
  cancel_amended.1 stateActive (by decide)

/-- C5 counterexample: viewport `["xy"]`, cursor at column 0 on the `x`:
the cursor's own character is in the sub-range text, yet the scan offset
`cursor column + 1` excludes it, so the jump finds no candidate at all —
an occurrence exactly at the cursor column is not a candidate. -/
theorem forward_cursorColumn_counterexample :
    (subLines inpXY true).getD 0 [] = ['x', 'y'] ∧
    ((subLines inpXY true).getD 0 []).get? 0 = some 'x' ∧
    (⟨0, 0⟩ : Candidate) ∉ orderedCandidates iwsNone inpXY true 'x' ∧
    jumpCore iwsNone inpXY true 'x' = .noMatch := by
  decide

/-- C5 (amended): the forward sub-range runs from the cursor's line to
the end of the viewport, with column offset `cursor column + 1` applied
to the first line: a candidate on the cursor's line lies strictly after
the cursor column, so an occurrence exactly at the cursor column is not
a candidate, while every in-range occurrence strictly after it (passing
the word rule when enabled) is. -/
theorem forward_subrange_amended (iws : List Char → Nat → Bool) (inp : JumpInput) (c : Char) :
    subLines inp true = inp.lines.drop (inp.cursorLine - (inp.startline - 1)) ∧
    scanOffset inp true = inp.cursorCol + 1 ∧
    (∀ p : Candidate, p ∈ orderedCandidates iws inp true c → p.line = 0 →
      inp.cursorCol + 1 ≤ p.character) ∧
    (∀ p : Candidate, p ∈ orderedCandidates iws inp true c ↔
      (p.line < (subLines inp true).length ∧
       ((subLines inp true).getD p.line []).get? p.character = some c ∧
       (if p.line = 0 then inp.cursorCol + 1 else 0) ≤ p.character ∧
       (inp.wordJump = false ∨
         iws ((subLines inp true).getD p.line []) p.character = true))) := by
  have hoc : orderedCandidates iws inp true c =
      getPositions iws c (subLines inp true) inp.wordJump (inp.cursorCol + 1) := rfl
  refine ⟨rfl, rfl, ?_, ?_⟩
  · intro p hp h0
    rw [hoc, mem_getPositions] at hp
    have h3 := hp.2.2.1
    rw [if_pos h0] at h3
    exact h3
  · intro p
    rw [hoc, mem_getPositions]

/-- C5 witness: viewport `["xx"]`, cursor at column 0: the occurrence at
column 1 — strictly after the cursor — is a candidate, at an index
clearing the offset. -/
theorem forward_subrange_amended_witness :
    (⟨0, 1⟩ : Candidate) ∈ orderedCandidates iwsNone inpXX true 'x' ∧
    (0 : Nat) + 1 ≤ 1 :=
  ⟨by decide,
   (forward_subrange_amended iwsNone inpXX 'x').2.2.1 ⟨0, 1⟩ (by decide) rfl⟩

/-- C6: the backward sub-range keeps the viewport lines down to the
cursor's line, with that line truncated to the text strictly before the
cursor column, and the candidate order is the reversal of appearance
order — the first candidate is the last (nearest-to-cursor) occurrence,
and every candidate on the cursor's line lies strictly before the
cursor column. -/
theorem backward_subrange_spec (iws : List Char → Nat → Bool) (inp : JumpInput) (c : Char) :
    subLines inp false =
      setLast (inp.lines.take (inp.cursorLine - (inp.startline - 1) + 1))
        (inp.currline.take inp.cursorCol) ∧
    orderedCandidates iws inp false c =
      (getPositions iws c (subLines inp false) inp.wordJump 0).reverse ∧
    (orderedCandidates iws inp false c).head? =
      (getPositions iws c (subLines inp false) inp.wordJump 0).getLast? ∧
    (∀ p : Candidate, p ∈ orderedCandidates iws inp false c →
      p.line + 1 = (subLines inp false).length → p.character < inp.cursorCol) := by
  have hsub : subLines inp false =
      setLast (inp.lines.take (inp.cursorLine - (inp.startline - 1) + 1))
        (inp.currline.take inp.cursorCol) := rfl
  have hoc : orderedCandidates iws inp false c =
      (getPositions iws c (subLines inp false) inp.wordJump 0).reverse := rfl
  refine ⟨hsub, hoc, ?_, ?_⟩
  · rw [hoc]
    exact List.head?_reverse _
  · intro p hp hlast
    rw [hoc, List.mem_reverse, mem_getPositions] at hp
    have hlen : (subLines inp false).length =
        (inp.lines.take (inp.cursorLine - (inp.startline - 1) + 1)).length := by
      rw [hsub, setLast_length]
    have h1 : 1 ≤ (inp.lines.take (inp.cursorLine - (inp.startline - 1) + 1)).length := by
      omega
    have hne : inp.lines.take (inp.cursorLine - (inp.startline - 1) + 1) ≠ [] := by
      intro he
      rw [he] at h1
      simp at h1
    have hpl : p.line =
        (inp.lines.take (inp.cursorLine - (inp.startline - 1) + 1)).length - 1 := by
      omega
    have hget : (subLines inp false).getD p.line [] = inp.currline.take inp.cursorCol := by
      rw [hsub, hpl]
      exact setLast_getD_last _ _ hne
    rw [hget] at hp
    have hlt : p.character < (inp.currline.take inp.cursorCol).length :=
      (List.get?_eq_some.mp hp.2.1).1
    have hle : (inp.currline.take inp.cursorCol).length ≤ inp.cursorCol := by
      simp [List.length_take]
    omega

/-- C6 witness: five visible lines, cursor at line offset 4 column 10,
`x` at (1,1) and (4,3): the nearer occurrence (4,3) is a candidate of
the backward jump and lies strictly before the cursor column. -/
theorem backward_subrange_spec_witness :
    (⟨4, 3⟩ : Candidate) ∈ orderedCandidates iwsNone inpBackScenario false 'x' ∧
    (orderedCandidates iwsNone inpBackScenario false 'x').head? = some ⟨4, 3⟩ ∧
    (3 : Nat) < 10 :=
  ⟨by decide, by decide,
   (backward_subrange_spec iwsNone inpBackScenario 'x').2.2.2 ⟨4, 3⟩ (by decide) (by decide)⟩

/-- C7: with `jumpOnTrigger` enabled and a non-empty candidate sequence,
the first candidate is removed before label assignment and becomes the
immediate cursor target; labels are computed only for the remaining
candidates, so every rendered outcome labels exactly the alphabet-zipped
remainder of the sequence with the first candidate excluded. -/
theorem jumpOnTrigger_spec (iws : List Char → Nat → Bool) (inp : JumpInput) (isF : Bool)
    (c : Char) (first : Candidate) (rest : List Candidate)
    (hj : inp.jumpOnTrigger = true)
    (hc : orderedCandidates iws inp isF c = first :: rest) :
    jumpCore iws inp isF c =
      (if rest.isEmpty then JumpResult.jumpedOnly (absPos inp isF first)
       else JumpResult.rendered (some (absPos inp isF first))
         (characters.zip (rest.map (absPos inp isF)))
         ((rest.map (absPos inp isF)).drop 38)) ∧
    (∀ (f : Option (Nat × Nat)) (ls : List (String × (Nat × Nat))) (rs : List (Nat × Nat)),
      jumpCore iws inp isF c = .rendered f ls rs →
      f = some (absPos inp isF first) ∧
      ls = characters.zip (rest.map (absPos inp isF)) ∧
      rs = (rest.map (absPos inp isF)).drop 38) := by
  have h1 : jumpCore iws inp isF c =
      (if rest.isEmpty then JumpResult.jumpedOnly (absPos inp isF first)
       else JumpResult.rendered (some (absPos inp isF first))
         (assignLabels (rest.map (absPos inp isF))).1
         (assignLabels (rest.map (absPos inp isF))).2) := by
    simp only [jumpCore.eq_def, hc, hj, if_true]
  rw [assignLabels_fst, assignLabels_snd] at h1
  refine ⟨h1, ?_⟩
  intro f ls rs h2
  rw [h1] at h2
  by_cases hr : rest.isEmpty
  · rw [if_pos hr] at h2
    cases h2
  · rw [if_neg hr] at h2
    cases h2
    exact ⟨rfl, rfl, rfl⟩

/-- C7 witness: the spec's own scenario `["fox", "box"]`, searching
`'o'` forward from (0,0) with `jumpOnTrigger`: the first candidate (0,1)
is consumed as the cursor target (line 1, byte column 2) and only the
remaining candidate is labelled, with `"a"` at (2,2). -/
theorem jumpOnTrigger_spec_witness :
    jumpCore iwsNone inpFox true 'o' =
      JumpResult.rendered (some (1, 2)) [("a", (2, 2))] [] :=
  (jumpOnTrigger_spec iwsNone inpFox true 'o' ⟨0, 1⟩ [⟨1, 1⟩] rfl (by decide)).1.trans
    (by decide)

/-- C8: whenever a jump renders markers, the stored repeat position of
the resulting state is the head of that same run's Remainder List (so
`none` exactly when there was no overflow), regardless of the repeat
position held before — no value from an earlier session survives a
rendering jump. -/
theorem repeatPosition_spec (s sPrev : ManagerState) (iws : List Char → Nat → Bool)
    (inp : JumpInput) (isF : Bool) (c : Char) (handles : List Nat)
    (f : Option (Nat × Nat)) (ls : List (String × (Nat × Nat))) (rs : List (Nat × Nat))
    (h : jumpCore iws inp isF c = .rendered f ls rs) :
    (applyJump s iws inp isF c handles).repeatPosition = rs.head? ∧
    (applyJump s iws inp isF c handles).repeatPosition =
      (applyJump sPrev iws inp isF c handles).repeatPosition := by
  unfold applyJump
  rw [h]
  exact ⟨rfl, rfl⟩

/-- C8 witness: a no-overflow jump run from a state carrying a stale
repeat position stores `none` — the head of the empty Remainder List —
and agrees with the same run from a fresh state. -/
theorem repeatPosition_spec_witness :
    (applyJump { stateActive with repeatPosition := some (9, 9) }
      iwsNone inpXX true 'x' [5]).repeatPosition = ([] : List (Nat × Nat)).head? ∧
    (applyJump { stateActive with repeatPosition := some (9, 9) }
      iwsNone inpXX true 'x' [5]).repeatPosition =
      (applyJump stateFwdX iwsNone inpXX true 'x' [5]).repeatPosition :=
  repeatPosition_spec { stateActive with repeatPosition := some (9, 9) } stateFwdX
    iwsNone inpXX true 'x' [5] none [("a", (1, 2))] [] (by decide)

end Smartf
